import Mathlib

/-!
Verification of the Data-Pack image ingestion pipeline.

Shallow embedding of the repository code:
- `src/utils/db.py` (Content Store: `upsert_image`, `all_hashes`)
- `src/utils/io.py` (Downloader: `download_image`)
- `src/scraping/common.py` (URL extraction, retry wrappers, orchestrator loop)
- `src/qc/duplicates.py` (`find_duplicates`)
- `src/dataset/exporter.py` (`_collect_rows`)

External effects (SQLite, HTTP, PIL, regular expressions, random jitter) are
modelled by explicit inputs: the database is a list of rows, an HTTP fetch is
an outcome value supplied by the environment, image decoding is a function
argument, a regex is the Boolean predicate it denotes on strings, and a
randomized sleep is recorded symbolically as its (lo, hi) interval.
-/

namespace DataPack

/-! ## Content Store (src/utils/db.py)

One row of the `images` table. The `created_at` column is omitted: it is set
only by a SQL default on insert, is excluded from the upsert UPDATE clause,
and is read by none of the operations verified here. -/

structure ImageValues where
  source : Option String
  query : Option String
  url : Option String
  local_path : Option String
  processed_path : Option String
  width : Option Int
  height : Option Int
  format : Option String
  hash : Option String
  type : Option String
  prompt : Option String
  flags : Option String
  deriving DecidableEq

structure Row where
  id : Nat
  source : Option String
  query : Option String
  url : Option String
  local_path : Option String
  processed_path : Option String
  width : Option Int
  height : Option Int
  format : Option String
  hash : Option String
  type : Option String
  prompt : Option String
  flags : Option String
  deriving DecidableEq

/-- A freshly inserted row: `INSERT INTO images (source, ..., flags) VALUES (...)`
with the surrogate id assigned by AUTOINCREMENT. -/
def newRow (id : Nat) (v : ImageValues) : Row :=
  ⟨id, v.source, v.query, v.url, v.local_path, v.processed_path,
   v.width, v.height, v.format, v.hash, v.type, v.prompt, v.flags⟩

/-- Effect of `ON CONFLICT(url) DO UPDATE SET k=excluded.k` for every key k of
the insert list except `url` (db.py line 53 : `if k not in ("url",)`). -/
def applyUpdate (r : Row) (v : ImageValues) : Row :=
  { r with
    source := v.source, query := v.query, local_path := v.local_path,
    processed_path := v.processed_path, width := v.width, height := v.height,
    format := v.format, hash := v.hash, type := v.type, prompt := v.prompt,
    flags := v.flags }

/-- Database state: the rows of the `images` table in insertion (rowid) order,
plus the next AUTOINCREMENT id. -/
structure DBState where
  rows : List Row
  nextId : Nat
  deriving DecidableEq

/-- Number of rows whose `url` column equals the given string. -/
def urlCount (rows : List Row) (u : String) : Nat :=
  rows.countP (fun r => r.url == some u)

def containsUrl (rows : List Row) (u : String) : Bool :=
  rows.any (fun r => r.url == some u)

/-- Result of `SELECT id FROM images WHERE url=?` (db.py line 61). -/
def selectIdByUrl (rows : List Row) (u : String) : Option Nat :=
  (rows.find? (fun r => r.url == some u)).map (fun r => r.id)

/-- Update every row whose url matches (the UNIQUE constraint guarantees at
most one such row, carried as a hypothesis where it matters). -/
def updateMatching (rows : List Row) (u : String) (v : ImageValues) : List Row :=
  rows.map (fun r => if r.url == some u then applyUpdate r v else r)

/-- Model of `Database.upsert_image` (db.py lines 47-63): INSERT with
`ON CONFLICT(url) DO UPDATE SET` on every key except `url`, followed by
`SELECT id FROM images WHERE url=?`. A NULL url never conflicts in SQLite,
and `url = NULL` selects no row, so that branch inserts and returns None. -/
def upsert_image (db : DBState) (v : ImageValues) : DBState × Option Nat :=
  match v.url with
  | none => (⟨db.rows ++ [newRow db.nextId v], db.nextId + 1⟩, none)
  | some u =>
    if containsUrl db.rows u then
      let rows2 := updateMatching db.rows u v
      (⟨rows2, db.nextId⟩, selectIdByUrl rows2 u)
    else
      let rows2 := db.rows ++ [newRow db.nextId v]
      (⟨rows2, db.nextId + 1⟩, selectIdByUrl rows2 u)

/-! Basic lemmas about the store operations. -/

theorem applyUpdate_url (r : Row) (v : ImageValues) : (applyUpdate r v).url = r.url := rfl

theorem applyUpdate_id (r : Row) (v : ImageValues) : (applyUpdate r v).id = r.id := rfl

theorem updateMatching_nil (u : String) (v : ImageValues) :
    updateMatching [] u v = [] := rfl

theorem updateMatching_cons (r : Row) (rs : List Row) (u : String) (v : ImageValues) :
    updateMatching (r :: rs) u v =
      (if (r.url == some u) = true then applyUpdate r v else r) :: updateMatching rs u v := rfl

theorem find?_updateMatching (rows : List Row) (u : String) (v : ImageValues) :
    (updateMatching rows u v).find? (fun r => r.url == some u) =
      (rows.find? (fun r => r.url == some u)).map (fun r => applyUpdate r v) := by
  induction rows with
  | nil => rfl
  | cons r rs ih =>
    rw [updateMatching_cons]
    by_cases h : (r.url == some u) = true
    · rw [if_pos h]
      rw [List.find?_cons_of_pos (p := fun (r : Row) => r.url == some u) _
        (by simp only [applyUpdate_url]; exact h)]
      rw [List.find?_cons_of_pos (p := fun (r : Row) => r.url == some u) _ h]
      rfl
    · rw [if_neg h]
      rw [List.find?_cons_of_neg (p := fun (r : Row) => r.url == some u) _ h,
        List.find?_cons_of_neg (p := fun (r : Row) => r.url == some u) _ h]
      exact ih

theorem urlCount_updateMatching (rows : List Row) (u u' : String) (v : ImageValues) :
    urlCount (updateMatching rows u v) u' = urlCount rows u' := by
  induction rows with
  | nil => rfl
  | cons r rs ih =>
    rw [updateMatching_cons]
    unfold urlCount at *
    rw [List.countP_cons, List.countP_cons, ih]
    by_cases h : (r.url == some u) = true
    · rw [if_pos h]
      simp only [applyUpdate_url]
    · rw [if_neg h]

theorem urlCount_append_single (rows : List Row) (r : Row) (u : String) :
    urlCount (rows ++ [r]) u = urlCount rows u + (if r.url = some u then 1 else 0) := by
  simp only [urlCount, List.countP_append, List.countP_cons, List.countP_nil]
  by_cases h : r.url = some u <;> simp [h]

theorem containsUrl_true_iff (rows : List Row) (u : String) :
    containsUrl rows u = true ↔ ∃ r ∈ rows, r.url = some u := by
  simp [containsUrl, List.any_eq_true]

theorem containsUrl_false_urlCount (rows : List Row) (u : String)
    (h : containsUrl rows u = false) : urlCount rows u = 0 := by
  rw [urlCount, List.countP_eq_zero]
  intro r hr
  simp only [beq_iff_eq]
  intro hu
  have : containsUrl rows u = true := (containsUrl_true_iff rows u).mpr ⟨r, hr, hu⟩
  rw [h] at this
  exact Bool.false_ne_true this

theorem containsUrl_true_urlCount (rows : List Row) (u : String)
    (h : containsUrl rows u = true) : 1 ≤ urlCount rows u := by
  obtain ⟨r, hr, hu⟩ := (containsUrl_true_iff rows u).mp h
  have : 0 < urlCount rows u := by
    rw [urlCount, List.countP_pos_iff]
    exact ⟨r, hr, by simp [hu]⟩
  omega

theorem find?_isSome_of_containsUrl (rows : List Row) (u : String)
    (h : containsUrl rows u = true) :
    (rows.find? (fun r => r.url == some u)).isSome = true := by
  obtain ⟨r, hr, hu⟩ := (containsUrl_true_iff rows u).mp h
  rcases hf : rows.find? (fun r => r.url == some u) with _ | r'
  · rw [List.find?_eq_none] at hf
    exact absurd (by simp [hu]) (hf r hr)
  · rw [hf]
    rfl

theorem containsUrl_updateMatching (rows : List Row) (u u' : String) (v : ImageValues) :
    containsUrl (updateMatching rows u v) u' = containsUrl rows u' := by
  induction rows with
  | nil => rfl
  | cons r rs ih =>
    rw [updateMatching_cons]
    unfold containsUrl at *
    rw [List.any_cons, List.any_cons, ih]
    by_cases h : (r.url == some u) = true
    · rw [if_pos h]
      simp only [applyUpdate_url]
    · rw [if_neg h]

theorem urlCount_pos_contains (rows : List Row) (u : String)
    (h : 1 ≤ urlCount rows u) : containsUrl rows u = true := by
  rw [containsUrl_true_iff]
  have hp : 0 < urlCount rows u := by omega
  rw [urlCount, List.countP_pos_iff] at hp
  obtain ⟨r, hr, hpr⟩ := hp
  exact ⟨r, hr, by simpa using hpr⟩

theorem upsert_image_conflict (db : DBState) (v : ImageValues) (u : String)
    (hv : v.url = some u) (hc : containsUrl db.rows u = true) :
    upsert_image db v =
      (⟨updateMatching db.rows u v, db.nextId⟩,
        selectIdByUrl (updateMatching db.rows u v) u) := by
  unfold upsert_image
  rw [hv]
  simp [hc]

theorem upsert_image_fresh (db : DBState) (v : ImageValues) (u : String)
    (hv : v.url = some u) (hc : containsUrl db.rows u = false) :
    upsert_image db v =
      (⟨db.rows ++ [newRow db.nextId v], db.nextId + 1⟩,
        selectIdByUrl (db.rows ++ [newRow db.nextId v]) u) := by
  unfold upsert_image
  rw [hv]
  simp [hc]

theorem selectId_updateMatching (rows : List Row) (u : String) (v : ImageValues) :
    selectIdByUrl (updateMatching rows u v) u = selectIdByUrl rows u := by
  unfold selectIdByUrl
  rw [find?_updateMatching]
  cases rows.find? (fun r => r.url == some u) <;> rfl

/-- After an upsert of values carrying a url, exactly one row holds that url,
provided the UNIQUE constraint held before. -/
theorem upsert_urlCount_one (db : DBState) (v : ImageValues) (u : String)
    (hv : v.url = some u) (hend : urlCount db.rows u ≤ 1) :
    urlCount (upsert_image db v).1.rows u = 1 := by
  cases hc : containsUrl db.rows u with
  | true =>
    rw [upsert_image_conflict db v u hv hc]
    have h1 := containsUrl_true_urlCount db.rows u hc
    have h2 := urlCount_updateMatching db.rows u u v
    simp only []
    omega
  | false =>
    rw [upsert_image_fresh db v u hv hc]
    have h0 := containsUrl_false_urlCount db.rows u hc
    have h2 := urlCount_append_single db.rows (newRow db.nextId v) u
    have hn : (newRow db.nextId v).url = some u := by
      simp [newRow, hv]
    simp only []
    rw [h2, h0, if_pos hn]

/-- The id returned by an upsert is the id found for the url in the new state. -/
theorem upsert_returns_selectId (db : DBState) (v : ImageValues) (u : String)
    (hv : v.url = some u) :
    (upsert_image db v).2 = selectIdByUrl (upsert_image db v).1.rows u := by
  cases hc : containsUrl db.rows u with
  | true => rw [upsert_image_conflict db v u hv hc]
  | false => rw [upsert_image_fresh db v u hv hc]

/-- C1: upserting the same url twice (starting from any state respecting the
UNIQUE constraint for that url) leaves exactly one row with that url; the
second call returns the same id as the first, the first id is present, and
the surviving row carries exactly the second call values on every mutable
field while its url is untouched. -/
theorem upsert_image_idempotent_url
    (db : DBState) (v w : ImageValues) (u : String)
    (hend : urlCount db.rows u ≤ 1)
    (hv : v.url = some u) (hw : w.url = some u) :
    urlCount (upsert_image (upsert_image db v).1 w).1.rows u = 1 ∧
    (upsert_image (upsert_image db v).1 w).2 = (upsert_image db v).2 ∧
    ((upsert_image db v).2).isSome = true ∧
    ∃ r1, (upsert_image (upsert_image db v).1 w).1.rows.find?
        (fun r => r.url == some u) = some r1 ∧
      some r1.id = (upsert_image (upsert_image db v).1 w).2 ∧
      r1.url = some u ∧ r1.source = w.source ∧ r1.query = w.query ∧
      r1.local_path = w.local_path ∧ r1.processed_path = w.processed_path ∧
      r1.width = w.width ∧ r1.height = w.height ∧ r1.format = w.format ∧
      r1.hash = w.hash ∧ r1.type = w.type ∧ r1.prompt = w.prompt ∧
      r1.flags = w.flags := by
  have h1count : urlCount (upsert_image db v).1.rows u = 1 :=
    upsert_urlCount_one db v u hv hend
  have h1cont : containsUrl (upsert_image db v).1.rows u = true :=
    urlCount_pos_contains _ u (by omega)
  have h2eq := upsert_image_conflict (upsert_image db v).1 w u hw h1cont
  have h1sel := upsert_returns_selectId db v u hv
  have hfind := find?_isSome_of_containsUrl (upsert_image db v).1.rows u h1cont
  rcases hf : (upsert_image db v).1.rows.find? (fun r => r.url == some u) with _ | r0
  · rw [hf] at hfind
    exact absurd hfind (by simp)
  have hr0u : r0.url = some u := by
    have := List.find?_some hf
    simpa using this
  refine ⟨?_, ?_, ?_, ?_⟩
  · rw [h2eq]
    have := urlCount_updateMatching (upsert_image db v).1.rows u u w
    simp only []
    omega
  · rw [h2eq]
    simp only []
    rw [selectId_updateMatching, h1sel]
  · rw [h1sel]
    unfold selectIdByUrl
    rw [hf]
    rfl
  · refine ⟨applyUpdate r0 w, ?_, ?_, ?_, rfl, rfl, rfl, rfl, rfl, rfl, rfl, rfl, rfl, rfl, rfl⟩
    · rw [h2eq]
      simp only []
      rw [find?_updateMatching, hf]
      rfl
    · rw [h2eq]
      simp only []
      rw [selectId_updateMatching]
      unfold selectIdByUrl
      rw [hf]
      rfl
    · rw [applyUpdate_url]
      exact hr0u

/-- Demonstration state for the upsert claims: one already processed row. -/
def procRow : Row :=
  ⟨1, some "unsplash", some "cats", some "http://x/a.jpg", some "raw/a.jpg",
   some "proc/a.jpg", some 600, some 800, some "JPEG", some "h1",
   some "photo", some "a cat", none⟩

def procDB : DBState := ⟨[procRow], 2⟩

def demoV : ImageValues :=
  ⟨some "unsplash", some "cats", some "http://x/a.jpg", some "raw/a.jpg", none,
   some 100, some 100, some "JPEG", none, none, none, none⟩

def demoW : ImageValues :=
  ⟨some "unsplash", some "cats", some "http://x/a.jpg", some "raw/a.jpg", none,
   some 200, some 200, some "JPEG", none, none, none, none⟩

/-- Witness for C1 at a concrete store: the empty database, then
width 100 and width 200 values for the same url. -/
theorem upsert_image_idempotent_url_witness :
    urlCount (⟨[], 1⟩ : DBState).rows "http://x/a.jpg" ≤ 1 ∧
    demoV.url = some "http://x/a.jpg" ∧ demoW.url = some "http://x/a.jpg" ∧
    (urlCount (upsert_image (upsert_image ⟨[], 1⟩ demoV).1 demoW).1.rows "http://x/a.jpg" = 1 ∧
    (upsert_image (upsert_image ⟨[], 1⟩ demoV).1 demoW).2 = (upsert_image ⟨[], 1⟩ demoV).2 ∧
    ((upsert_image ⟨[], 1⟩ demoV).2).isSome = true ∧
    ∃ r1, (upsert_image (upsert_image ⟨[], 1⟩ demoV).1 demoW).1.rows.find?
        (fun r => r.url == some "http://x/a.jpg") = some r1 ∧
      some r1.id = (upsert_image (upsert_image ⟨[], 1⟩ demoV).1 demoW).2 ∧
      r1.url = some "http://x/a.jpg" ∧ r1.source = demoW.source ∧ r1.query = demoW.query ∧
      r1.local_path = demoW.local_path ∧ r1.processed_path = demoW.processed_path ∧
      r1.width = demoW.width ∧ r1.height = demoW.height ∧ r1.format = demoW.format ∧
      r1.hash = demoW.hash ∧ r1.type = demoW.type ∧ r1.prompt = demoW.prompt ∧
      r1.flags = demoW.flags) :=
  ⟨by decide, rfl, rfl,
    upsert_image_idempotent_url ⟨[], 1⟩ demoV demoW "http://x/a.jpg" (by decide) rfl rfl⟩

/-! ## Orchestrator ingestion values (src/scraping/common.py `_ingest_url`) -/

/-- Values passed to `upsert_image` by the ingestion path `_ingest_url`
(scraping/common.py lines 290-303): a fresh download carries None for
processed_path, hash, type, prompt and flags. -/
def ingestValues (source query url local_path : String)
    (width height : Int) (format : String) : ImageValues :=
  ⟨some source, some query, some url, some local_path, none,
   some width, some height, some format, none, none, none, none⟩

/-- C2 counterexample: a record whose derived fields were set by a prior
processing pass (hash h1, type photo, prompt, processed path), when the same
url is re-ingested through the orchestrator path, has all four derived fields
overwritten with None, directly contradicting the claim that ingestion never
overwrites already processed derived fields. -/
theorem upsert_ingest_overwrite_cex :
    procDB.rows.map (fun r => (r.hash, r.type, r.prompt, r.processed_path)) =
      [(some "h1", some "photo", some "a cat", some "proc/a.jpg")] ∧
    (upsert_image procDB
        (ingestValues "unsplash" "cats" "http://x/a.jpg" "raw/a2.jpg" 600 800 "JPEG")).1.rows.map
        (fun r => (r.hash, r.type, r.prompt, r.processed_path)) =
      [(none, none, none, none)] := by
  constructor
  · rfl
  · rfl

/-- C2 amended: re-ingesting a url that is already stored updates the existing
row in place (same id, same url) but resets hash, type, prompt and
processed_path to None - the ingestion path does overwrite already processed
derived fields. -/
theorem upsert_ingest_overwrites_derived (db : DBState)
    (u src q lp : String) (w h : Int) (fmt : String)
    (hc : containsUrl db.rows u = true) :
    ∃ r0 r1,
      db.rows.find? (fun r => r.url == some u) = some r0 ∧
      (upsert_image db (ingestValues src q u lp w h fmt)).1.rows.find?
        (fun r => r.url == some u) = some r1 ∧
      r1.hash = none ∧ r1.type = none ∧ r1.prompt = none ∧
      r1.processed_path = none ∧
      r1.id = r0.id ∧ r1.url = r0.url ∧
      (upsert_image db (ingestValues src q u lp w h fmt)).2 = some r0.id := by
  have hv : (ingestValues src q u lp w h fmt).url = some u := rfl
  have heq := upsert_image_conflict db (ingestValues src q u lp w h fmt) u hv hc
  have hfind := find?_isSome_of_containsUrl db.rows u hc
  rcases hf : db.rows.find? (fun r => r.url == some u) with _ | r0
  · rw [hf] at hfind
    exact absurd hfind (by simp)
  refine ⟨r0, applyUpdate r0 (ingestValues src q u lp w h fmt),
    hf, ?_, rfl, rfl, rfl, rfl, rfl, rfl, ?_⟩
  · rw [heq]
    simp only []
    rw [find?_updateMatching, hf]
    rfl
  · rw [heq]
    simp only []
    rw [selectId_updateMatching]
    unfold selectIdByUrl
    rw [hf]
    rfl

/-- Witness for the amended C2 theorem at the concrete processed store. -/
theorem upsert_ingest_overwrites_derived_witness :
    containsUrl procDB.rows "http://x/a.jpg" = true ∧
    ∃ r0 r1,
      procDB.rows.find? (fun r => r.url == some "http://x/a.jpg") = some r0 ∧
      (upsert_image procDB
          (ingestValues "unsplash" "cats" "http://x/a.jpg" "raw/a2.jpg" 600 800 "JPEG")).1.rows.find?
        (fun r => r.url == some "http://x/a.jpg") = some r1 ∧
      r1.hash = none ∧ r1.type = none ∧ r1.prompt = none ∧
      r1.processed_path = none ∧
      r1.id = r0.id ∧ r1.url = r0.url ∧
      (upsert_image procDB
          (ingestValues "unsplash" "cats" "http://x/a.jpg" "raw/a2.jpg" 600 800 "JPEG")).2 =
        some r0.id :=
  ⟨by decide,
    upsert_ingest_overwrites_derived procDB "http://x/a.jpg" "unsplash" "cats"
      "raw/a2.jpg" 600 800 "JPEG" (by decide)⟩

/-! ## Exporter (src/dataset/exporter.py, `_collect_rows`) -/

/-- Python truthiness fallback `a or b` on two nullable strings: None and the
empty string are falsy. -/
def pyOrOpt (a b : Option String) : Option String :=
  match a with
  | none => b
  | some s => if s = "" then b else some s

/-- Python `a or dflt` where dflt is a plain string. -/
def pyOrStr (a : Option String) (dflt : String) : String :=
  match a with
  | none => dflt
  | some s => if s = "" then dflt else s

structure ExportRow where
  image_path : Option String
  prompt : String
  type : String
  deriving DecidableEq

/-- Row mapping of `_collect_rows` (exporter.py lines 16-22):
image_path = processed_path or local_path, prompt = prompt or the empty
string, type = type or unknown. -/
def collect_row (r : Row) : ExportRow :=
  ⟨pyOrOpt r.processed_path r.local_path, pyOrStr r.prompt "", pyOrStr r.type "unknown"⟩

/-- Model of `_collect_rows` over the records returned by list_images. -/
def collect_rows (rows : List Row) : List ExportRow :=
  rows.map collect_row

/-- C10: the exported row takes processed_path as image_path exactly when it
is non-null and non-empty and local_path otherwise; prompt falls back to the
empty string and type to unknown exactly when the stored value is null or
empty. Both prompt and type of an exported row are plain strings, so no
exported row carries a null prompt or type. -/
theorem collect_row_spec (r : Row) :
    ((r.processed_path ≠ none ∧ r.processed_path ≠ some "") →
      (collect_row r).image_path = r.processed_path) ∧
    ((r.processed_path = none ∨ r.processed_path = some "") →
      (collect_row r).image_path = r.local_path) ∧
    ((r.prompt = none ∨ r.prompt = some "") → (collect_row r).prompt = "") ∧
    ((r.prompt ≠ none ∧ r.prompt ≠ some "") → r.prompt = some (collect_row r).prompt) ∧
    ((r.type = none ∨ r.type = some "") → (collect_row r).type = "unknown") ∧
    ((r.type ≠ none ∧ r.type ≠ some "") → r.type = some (collect_row r).type) := by
  refine ⟨?_, ?_, ?_, ?_, ?_, ?_⟩
  · rintro ⟨h1, h2⟩
    rcases hp : r.processed_path with _ | s
    · exact absurd hp h1
    · rw [hp] at h2
      have hs : ¬ s = "" := fun hss => h2 (by rw [hss])
      simp [collect_row, pyOrOpt, hp, hs]
  · rintro (hp | hp) <;> simp [collect_row, pyOrOpt, hp]
  · rintro (hp | hp) <;> simp [collect_row, pyOrStr, hp]
  · rintro ⟨h1, h2⟩
    rcases hp : r.prompt with _ | s
    · exact absurd hp h1
    · rw [hp] at h2
      have hs : ¬ s = "" := fun hss => h2 (by rw [hss])
      simp [collect_row, pyOrStr, hp, hs]
  · rintro (hp | hp) <;> simp [collect_row, pyOrStr, hp]
  · rintro ⟨h1, h2⟩
    rcases hp : r.type with _ | s
    · exact absurd hp h1
    · rw [hp] at h2
      have hs : ¬ s = "" := fun hss => h2 (by rw [hss])
      simp [collect_row, pyOrStr, hp, hs]

/-- Concrete record for the exporter witness: processed, captioned with the
empty caption, typed photo. -/
def exportDemoRow : Row :=
  ⟨3, some "pexels", some "dogs", some "http://x/b.jpg", some "raw/b.jpg",
   some "proc/b.jpg", some 640, some 640, some "JPEG", some "h2",
   some "photo", none, none⟩

/-- Witness for C10 at a concrete record. -/
theorem collect_row_spec_witness :
    (exportDemoRow.processed_path ≠ none ∧ exportDemoRow.processed_path ≠ some "") ∧
    (collect_row exportDemoRow).image_path = exportDemoRow.processed_path ∧
    (exportDemoRow.prompt = none ∨ exportDemoRow.prompt = some "") ∧
    (collect_row exportDemoRow).prompt = "" ∧
    (exportDemoRow.type ≠ none ∧ exportDemoRow.type ≠ some "") ∧
    exportDemoRow.type = some (collect_row exportDemoRow).type :=
  ⟨⟨by decide, by decide⟩,
    (collect_row_spec exportDemoRow).1 ⟨by decide, by decide⟩,
    Or.inl (by decide),
    (collect_row_spec exportDemoRow).2.2.1 (Or.inl (by decide)),
    ⟨by decide, by decide⟩,
    (collect_row_spec exportDemoRow).2.2.2.2.2 ⟨by decide, by decide⟩⟩

/-! ## Downloader (src/utils/io.py, `download_image`) -/

structure DecodedImage where
  width : Nat
  height : Nat
  deriving DecidableEq

structure DownloadInfo where
  local_path : String
  width : Nat
  height : Nat
  format : String
  deriving DecidableEq

/-- Model of `download_image(url, dest_dir, timeout)` (io.py lines 18-36).
The HTTP GET is an environment input: none models a raised requests
exception, some (status, body) a response; the body is the byte list.
Image decoding (PIL open plus RGB conversion) is the function argument
decode, with none modelling a decode failure. The sha256-derived filename
stem is the function argument digest. The source function has no min_size
parameter and performs no dimension check of any kind. -/
def download_image (decode : List Nat → Option DecodedImage)
    (digest : String → String) (resp : Option (Nat × List Nat))
    (url destDir : String) (timeout : Nat) : Option DownloadInfo :=
  match resp with
  | none => none
  | some (status, content) =>
    if status ≠ 200 ∨ content = [] then none
    else
      match decode content with
      | none => none
      | some img =>
        some ⟨destDir ++ "/img_" ++ digest url ++ ".jpg", img.width, img.height, "JPEG"⟩

/-- Model of `_download_with_retry` (scraping/common.py lines 237-248) as it
composes with io.py. The call `download_image(url, dest_dir, timeout, min_size)`
passes four positional arguments to the three-parameter `download_image`
(io.py line 18), so every attempt raises TypeError before any network or
image work happens; the wrapper catches each exception and after the third
attempt returns None. The composed behavior is therefore constantly None,
whatever the url, image size or min_size. UnsplashScraper.download_images
(unsplash.py line 135) makes the identical four-argument call. -/
def download_with_retry (url destDir : String)
    (timeout minSize : Nat) : Option DownloadInfo := none

/-- C3 evaluation at the failing input: a response whose bytes decode to a
300 by 300 image yields a populated result from `download_image` (there is
no min_size check to reject it), while the retry wrapper that callers
actually use returns None for every url, including ones that would decode
to 600 by 800. The claimed min_size behavior exists nowhere in the code. -/
theorem download_image_min_size_bug :
    download_image (fun _ => some ⟨300, 300⟩) (fun _ => "d") (some (200, [1]))
        "http://x/a.jpg" "raw" 15 =
      some ⟨"raw/img_d.jpg", 300, 300, "JPEG"⟩ ∧
    download_with_retry "http://x/b.jpg" "raw" 15 512 = none := by
  constructor
  · rfl
  · rfl

/-! ## Dedup Engine (src/qc/duplicates.py and db.py `all_hashes`) -/

/-- Model of `Database.all_hashes` (db.py lines 104-107): id and hash of every
row whose hash is not NULL, in table order. -/
def all_hashes (rows : List Row) : List (Nat × String) :=
  rows.filterMap (fun r => r.hash.map (fun h => (r.id, h)))

/-- Model of `groups.setdefault(h, []).append(int(r[id]))` on an
insertion-ordered dictionary: append the id to the entry of the matching
key, or add a new key at the end. -/
def addToGroups (gs : List (String × List Nat)) (h : String) (i : Nat) :
    List (String × List Nat) :=
  match gs with
  | [] => [(h, [i])]
  | (k, ids) :: rest =>
    if k = h then (k, ids ++ [i]) :: rest else (k, ids) :: addToGroups rest h i

/-- Model of `find_duplicates` (duplicates.py lines 6-14): fold the non-null
hash rows into insertion-ordered groups, skipping falsy (empty string)
hashes via the `if not h` guard, then keep the id groups of size at least 2.
The model is a pure function of the store, so the call mutates nothing. -/
def find_duplicates (rows : List Row) : List (List Nat) :=
  (((all_hashes rows).foldl
      (fun gs p => if p.2 = "" then gs else addToGroups gs p.2 p.1) []).map
    (fun g => g.2)).filter (fun ids => 2 ≤ ids.length)

/-- The ids paired with a given hash value, in store order. -/
def idsOf (pairs : List (Nat × String)) (h : String) : List Nat :=
  (pairs.filter (fun q => q.2 == h)).map Prod.fst

def keysOf (gs : List (String × List Nat)) : List String := gs.map Prod.fst

/-- Grouping by hash value as the spec describes it: one group per distinct
hash value in order of first occurrence, each holding every id carrying that
hash, in store order. -/
def spec_groups : List (Nat × String) → List (String × List Nat)
  | [] => []
  | (i, h) :: rest =>
    (h, i :: idsOf rest h) :: spec_groups (rest.filter (fun q => q.2 != h))
termination_by l => l.length
decreasing_by
  simp only [List.length_cons]
  have := List.length_filter_le (fun q : Nat × String => q.2 != h) rest
  omega

/-- Duplicate grouping as the spec words it, amended to non-null and
non-empty hashes: group the records carrying a truthy hash by hash value and
report every group of size at least 2. -/
def spec_find_duplicates (rows : List Row) : List (List Nat) :=
  ((spec_groups ((all_hashes rows).filter (fun p => p.2 != ""))).map
    (fun g => g.2)).filter (fun ids => 2 ≤ ids.length)

theorem keysOf_cons (k : String) (ids : List Nat) (rest : List (String × List Nat)) :
    keysOf ((k, ids) :: rest) = k :: keysOf rest := rfl

theorem idsOf_cons_self (i : Nat) (h : String) (rest : List (Nat × String)) :
    idsOf ((i, h) :: rest) h = i :: idsOf rest h := by
  simp [idsOf]

theorem idsOf_cons_ne (i : Nat) (h k : String) (rest : List (Nat × String))
    (hne : ¬ h = k) : idsOf ((i, h) :: rest) k = idsOf rest k := by
  simp [idsOf, hne]

theorem keysOf_addToGroups_mem (gs : List (String × List Nat)) (h : String) (i : Nat)
    (hm : h ∈ keysOf gs) : keysOf (addToGroups gs h i) = keysOf gs := by
  induction gs with
  | nil => simp [keysOf] at hm
  | cons g rest ih =>
    obtain ⟨k, ids⟩ := g
    by_cases hk : k = h
    · simp [addToGroups, hk, keysOf]
    · have hm' : h ∈ keysOf rest := by
        rw [keysOf_cons] at hm
        rcases List.mem_cons.mp hm with h1 | h2
        · exact absurd h1.symm hk
        · exact h2
      rw [keysOf_cons] at hm ⊢
      simp only [addToGroups, if_neg hk]
      rw [keysOf_cons, ih hm']

theorem addToGroups_not_mem (gs : List (String × List Nat)) (h : String) (i : Nat)
    (hm : ¬ h ∈ keysOf gs) : addToGroups gs h i = gs ++ [(h, [i])] := by
  induction gs with
  | nil => rfl
  | cons g rest ih =>
    obtain ⟨k, ids⟩ := g
    have hk : ¬ k = h := by
      intro hkh
      exact hm (by rw [keysOf_cons, hkh]; exact List.mem_cons_self h _)
    have hm' : ¬ h ∈ keysOf rest := by
      intro hh
      exact hm (by rw [keysOf_cons]; exact List.mem_cons_of_mem k hh)
    simp only [addToGroups, if_neg hk, List.cons_append]
    rw [ih hm']

theorem addToGroups_map_mem (rest : List (Nat × String)) (i : Nat) (h : String)
    (gs : List (String × List Nat)) (hnd : (keysOf gs).Nodup) (hm : h ∈ keysOf gs) :
    (addToGroups gs h i).map (fun g => (g.1, g.2 ++ idsOf rest g.1)) =
      gs.map (fun g => (g.1, g.2 ++ idsOf ((i, h) :: rest) g.1)) := by
  induction gs with
  | nil => simp [keysOf] at hm
  | cons g tail ih =>
    obtain ⟨k, ids⟩ := g
    rw [keysOf_cons] at hnd hm
    by_cases hk : k = h
    · subst hk
      have hnotin : ¬ k ∈ keysOf tail := (List.nodup_cons.mp hnd).1
      have haddeq : addToGroups ((k, ids) :: tail) k i = (k, ids ++ [i]) :: tail := by
        simp [addToGroups]
      have hhead : (ids ++ [i]) ++ idsOf rest k = ids ++ idsOf ((i, k) :: rest) k := by
        rw [idsOf_cons_self, List.append_assoc]
        rfl
      have htail : tail.map (fun g => (g.1, g.2 ++ idsOf rest g.1)) =
          tail.map (fun g => (g.1, g.2 ++ idsOf ((i, k) :: rest) g.1)) := by
        apply List.map_congr_left
        intro a ha
        have hne : ¬ k = a.1 := by
          intro hh
          exact hnotin (hh ▸ List.mem_map_of_mem Prod.fst ha)
        rw [idsOf_cons_ne i k a.1 rest hne]
      rw [haddeq, List.map_cons, List.map_cons, hhead, htail]
    · have hm' : h ∈ keysOf tail := by
        rcases List.mem_cons.mp hm with h1 | h2
        · exact absurd h1.symm hk
        · exact h2
      have hnd' := (List.nodup_cons.mp hnd).2
      simp only [addToGroups, if_neg hk, List.map_cons]
      rw [ih hnd' hm']
      rw [idsOf_cons_ne i h k rest (fun hh => hk hh.symm)]

theorem foldl_addToGroups_spec (pairs : List (Nat × String)) :
    ∀ acc : List (String × List Nat), (keysOf acc).Nodup →
      pairs.foldl (fun gs p => addToGroups gs p.2 p.1) acc =
        acc.map (fun g => (g.1, g.2 ++ idsOf pairs g.1)) ++
          spec_groups (pairs.filter (fun p => decide (¬ p.2 ∈ keysOf acc))) := by
  induction pairs with
  | nil =>
    intro acc hnd
    simp [idsOf, spec_groups]
  | cons p rest ih =>
    obtain ⟨i, h⟩ := p
    intro acc hnd
    rw [List.foldl_cons]
    by_cases hm : h ∈ keysOf acc
    · have hnd2 : (keysOf (addToGroups acc h i)).Nodup := by
        rw [keysOf_addToGroups_mem acc h i hm]
        exact hnd
      rw [ih (addToGroups acc h i) hnd2]
      rw [keysOf_addToGroups_mem acc h i hm]
      rw [addToGroups_map_mem rest i h acc hnd hm]
      have hpred : (decide (¬ ((i, h) : Nat × String).2 ∈ keysOf acc)) = false := by
        simp [hm]
      rw [List.filter_cons]
      simp only [hpred, Bool.false_eq_true, if_neg, if_false]
    · have hacc2 : addToGroups acc h i = acc ++ [(h, [i])] := addToGroups_not_mem acc h i hm
      have hkeys : keysOf (acc ++ [(h, [i])]) = keysOf acc ++ [h] := by
        simp [keysOf]
      have hnd2 : (keysOf (acc ++ [(h, [i])])).Nodup := by
        rw [hkeys]
        refine List.Nodup.append hnd (List.nodup_singleton h) ?_
        intro a ha hb
        rw [List.mem_singleton] at hb
        exact hm (hb ▸ ha)
      rw [hacc2, ih (acc ++ [(h, [i])]) hnd2, hkeys]
      rw [List.map_append]
      have hmap : acc.map (fun g => (g.1, g.2 ++ idsOf rest g.1)) =
          acc.map (fun g => (g.1, g.2 ++ idsOf ((i, h) :: rest) g.1)) := by
        apply List.map_congr_left
        intro a ha
        have hne : ¬ h = a.1 := by
          intro hh
          exact hm (hh ▸ List.mem_map_of_mem Prod.fst ha)
        rw [idsOf_cons_ne i h a.1 rest hne]
      rw [hmap]
      have hpred : (decide (¬ ((i, h) : Nat × String).2 ∈ keysOf acc)) = true := by
        simp [hm]
      rw [List.filter_cons]
      simp only [hpred, if_pos]
      rw [spec_groups]
      have hids : idsOf (rest.filter (fun p => decide (¬ p.2 ∈ keysOf acc))) h =
          idsOf rest h := by
        unfold idsOf
        rw [List.filter_filter]
        apply congrArg
        apply List.filter_congr
        intro a ha
        by_cases hah : (a.2 == h) = true
        · have : a.2 = h := by simpa using hah
          simp [hah, this, hm]
        · simp [Bool.eq_false_iff.mpr hah]
      have hfilters :
          (rest.filter (fun p => decide (¬ p.2 ∈ keysOf acc))).filter
              (fun q => q.2 != h) =
            rest.filter (fun p => decide (¬ p.2 ∈ keysOf acc ++ [h])) := by
        rw [List.filter_filter]
        apply List.filter_congr
        intro a ha
        by_cases hah : a.2 = h
        · simp [hah]
        · simp [hah, List.mem_append]
      rw [hids, hfilters]
      simp [List.append_assoc]

theorem foldl_skip_empty (l : List (Nat × String)) :
    ∀ acc, l.foldl (fun gs p => if p.2 = "" then gs else addToGroups gs p.2 p.1) acc =
      (l.filter (fun p => p.2 != "")).foldl (fun gs p => addToGroups gs p.2 p.1) acc := by
  induction l with
  | nil => intro acc; rfl
  | cons p rest ih =>
    intro acc
    by_cases hp : p.2 = ""
    · simp [List.foldl_cons, hp, List.filter_cons, ih]
    · simp [List.foldl_cons, hp, List.filter_cons, ih]

/-- Record with only id and hash populated, for the dedup demonstrations. -/
def mkHashRow (i : Nat) (h : Option String) : Row :=
  ⟨i, none, none, none, none, none, none, none, none, h, none, none, none⟩

/-- C9 amended: find_duplicates returns exactly the groups of record ids
sharing an identical non-null AND non-empty hash value whose size is at
least 2, one group per distinct such hash in order of first occurrence with
ids in store order; on hashes A:h1, B:h1, C:h2 it returns the single group
containing A and B. The embedding is a pure function of the store, so the
call mutates nothing. -/
theorem find_duplicates_spec_eq :
    (∀ rows : List Row, find_duplicates rows = spec_find_duplicates rows) ∧
    find_duplicates
        [mkHashRow 1 (some "h1"), mkHashRow 2 (some "h1"), mkHashRow 3 (some "h2")] =
      [[1, 2]] := by
  constructor
  · intro rows
    unfold find_duplicates spec_find_duplicates
    rw [foldl_skip_empty]
    rw [foldl_addToGroups_spec _ [] (by simp [keysOf])]
    simp [keysOf]
  · decide

/-- C9 counterexample: two records share the identical non-null hash value
consisting of the empty string; the claim as stated demands the duplicate
group [1, 2], but find_duplicates skips falsy hashes (`if not h`) and
returns no group at all. -/
theorem find_duplicates_empty_hash_cex :
    (([mkHashRow 1 (some ""), mkHashRow 2 (some "")].filter
        (fun r => r.hash == some "")).map (fun r => r.id) = [1, 2]) ∧
    find_duplicates [mkHashRow 1 (some ""), mkHashRow 2 (some "")] = [] := by
  constructor
  · rfl
  · rfl

/-! ## Ingestion Orchestrator (src/scraping/common.py, `scrape_query` per-site loop)

The environment of the model maps a page number to the outcome of fetching
and extracting that page: none models a page fetch that failed after
retries, some cands a page whose extracted candidate urls are listed in
order, each marked true when its download succeeds (and hence its upsert
ingests a row) and false when the download returns None. -/

/-- The submission loop over one page of candidates (common.py lines
339-344): submit while fetched is below target, incrementing fetched per
submission whether or not the download will succeed. Returns the new
fetched counter and the number of rows ingested from this page. -/
def submitBatch (cands : List Bool) (fetched target : Nat) : Nat × Nat :=
  match cands with
  | [] => (fetched, 0)
  | c :: rest =>
    if target ≤ fetched then (fetched, 0)
    else
      let r := submitBatch rest (fetched + 1) target
      (r.1, r.2 + (if c then 1 else 0))

/-- The per-site page loop (common.py lines 320-361): each iteration issues
one page fetch; a failed fetch breaks, an empty candidate list continues to
the next page, otherwise the page batch is submitted and the loop breaks
when fetched reaches target. Returns (fetched, ingested, pages fetched). -/
def runPages (pages : Nat → Option (List Bool)) (target : Nat) :
    Nat → Nat → Nat → Nat → Nat → Nat × Nat × Nat
  | _, 0, fetched, ingested, pagesFetched => (fetched, ingested, pagesFetched)
  | page, rem + 1, fetched, ingested, pagesFetched =>
    match pages page with
    | none => (fetched, ingested, pagesFetched + 1)
    | some cands =>
      if cands = [] then
        runPages pages target (page + 1) rem fetched ingested (pagesFetched + 1)
      else
        let r := submitBatch cands fetched target
        if target ≤ r.1 then (r.1, ingested + r.2, pagesFetched + 1)
        else runPages pages target (page + 1) rem r.1 (ingested + r.2) (pagesFetched + 1)

/-- One site run: pages 1..maxPages, counters starting at zero. -/
def scrape_site (pages : Nat → Option (List Bool)) (target maxPages : Nat) :
    Nat × Nat × Nat :=
  runPages pages target 1 maxPages 0 0 0

theorem submitBatch_all_valid (cs : List Bool) :
    ∀ fetched target : Nat, fetched ≤ target → target - fetched ≤ cs.length →
      (∀ c ∈ cs, c = true) →
      submitBatch cs fetched target = (target, target - fetched) := by
  induction cs with
  | nil =>
    intro fetched target hle hlen _
    simp only [List.length_nil, Nat.le_zero] at hlen
    have : fetched = target := by omega
    simp [submitBatch, this]
  | cons c rest ih =>
    intro fetched target hle hlen hall
    by_cases hf : target ≤ fetched
    · have : fetched = target := by omega
      simp [submitBatch, hf, this]
    · have hc : c = true := hall c (List.mem_cons_self c rest)
      have hrec := ih (fetched + 1) target (by omega)
        (by simp only [List.length_cons] at hlen; omega)
        (fun x hx => hall x (List.mem_cons_of_mem c hx))
      simp only [submitBatch, if_neg hf, hrec, hc, if_pos]
      have : target - (fetched + 1) + 1 = target - fetched := by omega
      rw [this]

theorem submitBatch_bounds (cs : List Bool) :
    ∀ fetched target : Nat, fetched ≤ target →
      fetched ≤ (submitBatch cs fetched target).1 ∧
      (submitBatch cs fetched target).1 ≤ target ∧
      (submitBatch cs fetched target).2 + fetched ≤ (submitBatch cs fetched target).1 := by
  induction cs with
  | nil =>
    intro fetched target hle
    simp [submitBatch, hle]
  | cons c rest ih =>
    intro fetched target hle
    by_cases hf : target ≤ fetched
    · simp [submitBatch, hf, hle]
    · have hrec := ih (fetched + 1) target (by omega)
      simp only [submitBatch, if_neg hf]
      cases c <;> simp <;> omega

theorem runPages_bounds (pages : Nat → Option (List Bool)) (target : Nat) :
    ∀ (rem page fetched ingested pagesFetched : Nat),
      fetched ≤ target → ingested ≤ fetched →
      (runPages pages target page rem fetched ingested pagesFetched).2.2 ≤
        pagesFetched + rem ∧
      (runPages pages target page rem fetched ingested pagesFetched).1 ≤ target ∧
      (runPages pages target page rem fetched ingested pagesFetched).2.1 ≤
        (runPages pages target page rem fetched ingested pagesFetched).1 := by
  intro rem
  induction rem with
  | zero =>
    intro page fetched ingested pagesFetched h1 h2
    simp [runPages]
    omega
  | succ rem ih =>
    intro page fetched ingested pagesFetched h1 h2
    rcases hpg : pages page with _ | cands
    · simp only [runPages, hpg]
      refine ⟨by omega, h1, h2⟩
    · by_cases hemp : cands = []
      · simp only [runPages, hpg, if_pos hemp]
        have := ih (page + 1) fetched ingested (pagesFetched + 1) h1 h2
        refine ⟨by omega, this.2.1, this.2.2⟩
      · have hsb := submitBatch_bounds cands fetched target h1
        by_cases hstop : target ≤ (submitBatch cands fetched target).1
        · simp only [runPages, hpg, if_neg hemp, if_pos hstop]
          refine ⟨by omega, hsb.2.1, by omega⟩
        · simp only [runPages, hpg, if_neg hemp, if_neg hstop]
          have := ih (page + 1) (submitBatch cands fetched target).1
            (ingested + (submitBatch cands fetched target).2) (pagesFetched + 1)
            hsb.2.1 (by omega)
          refine ⟨by omega, this.2.1, this.2.2⟩

/-- C4: with target 5 and the first page yielding at least 10 candidates all
of whose downloads succeed, the orchestrator ingests exactly 5 images and
stops after fetching only that one page; and in general the per-site loop
fetches at most max_pages pages, never submits more downloads than the
target, and never ingests more rows than it submitted. -/
theorem scrape_site_target_stop
    (pages : Nat → Option (List Bool)) (cs : List Bool) (maxPages : Nat)
    (h1 : pages 1 = some cs) (h2 : 10 ≤ cs.length)
    (h3 : ∀ c ∈ cs, c = true) (h4 : 1 ≤ maxPages) :
    scrape_site pages 5 maxPages = (5, 5, 1) ∧
    (∀ (pg : Nat → Option (List Bool)) (t mp : Nat),
      (scrape_site pg t mp).2.2 ≤ mp ∧ (scrape_site pg t mp).1 ≤ t ∧
      (scrape_site pg t mp).2.1 ≤ (scrape_site pg t mp).1) := by
  constructor
  · obtain ⟨m, rfl⟩ : ∃ m, maxPages = m + 1 := ⟨maxPages - 1, by omega⟩
    have hemp : ¬ cs = [] := by
      intro h
      rw [h] at h2
      simp at h2
    have hsb : submitBatch cs 0 5 = (5, 5) := by
      have := submitBatch_all_valid cs 0 5 (by omega) (by omega) h3
      simpa using this
    unfold scrape_site
    simp only [runPages, h1, if_neg hemp, hsb]
    rfl
  · intro pg t mp
    have := runPages_bounds pg t mp 1 0 0 0 (by omega) (by omega)
    unfold scrape_site
    refine ⟨by omega, this.2.1, this.2.2⟩

/-- Concrete page environment for the C4 witness: page 1 holds ten valid
candidates, every other page fails to fetch. -/
def demoPages : Nat → Option (List Bool) :=
  fun p => if p = 1 then some (List.replicate 10 true) else none

/-- Witness for C4 at the concrete environment with max_pages 3. -/
theorem scrape_site_target_stop_witness :
    demoPages 1 = some (List.replicate 10 true) ∧
    10 ≤ (List.replicate 10 true).length ∧
    (∀ c ∈ List.replicate 10 true, c = true) ∧ 1 ≤ 3 ∧
    (scrape_site demoPages 5 3 = (5, 5, 1) ∧
    (∀ (pg : Nat → Option (List Bool)) (t mp : Nat),
      (scrape_site pg t mp).2.2 ≤ mp ∧ (scrape_site pg t mp).1 ≤ t ∧
      (scrape_site pg t mp).2.1 ≤ (scrape_site pg t mp).1)) :=
  ⟨rfl, by decide, by decide, by decide,
    scrape_site_target_stop demoPages (List.replicate 10 true) 3 rfl (by decide)
      (by decide) (by decide)⟩

/-! ## URL Extractor (src/scraping/common.py, `_extract_high_quality_urls`
and `_extract_generic_urls`)

The BeautifulSoup traversal is abstracted by its output: the list of
attribute values discovered on the matched elements, in discovery order.
A regular expression from quality_patterns is modelled by the Boolean
predicate it denotes on the raw url. -/

/-- Split a character list on a separator character, keeping empty pieces,
as Python `str.split(sep)` does. -/
def splitOnChar (sep : Char) : List Char → List (List Char)
  | [] => [[]]
  | c :: cs =>
    let r := splitOnChar sep cs
    if c = sep then [] :: r else (c :: r.headD []) :: r.tail

/-- Python `str.strip()`: drop whitespace from both ends. -/
def trimList (cs : List Char) : List Char :=
  ((cs.dropWhile Char.isWhitespace).reverse.dropWhile Char.isWhitespace).reverse

/-- Python `[p.strip() for p in val.split(",") if p.strip()]`. -/
def splitParts (val : String) : List String :=
  ((splitOnChar ',' val.data).map (fun cs => String.mk (trimList cs))).filter
    (fun p => p ≠ "")

/-- Python `part.split(" ")[0]`: the characters before the first space. -/
def urlPart (part : String) : String :=
  String.mk (part.data.takeWhile (fun c => ¬ c = ' '))

/-- Scan a maximal digit run, accumulating its value, and return the rest,
as the regex engine consumes the group of `(\d+)`. -/
def skipRun (acc : Nat) : List Char → Nat × List Char
  | [] => (acc, [])
  | c :: cs =>
    if c.isDigit then skipRun (acc * 10 + (c.toNat - 48)) cs else (acc, c :: cs)

theorem skipRun_length (cs : List Char) :
    ∀ acc, (skipRun acc cs).2.length ≤ cs.length := by
  induction cs with
  | nil => intro acc; simp [skipRun]
  | cons c cs ih =>
    intro acc
    by_cases h : c.isDigit
    · simp only [skipRun, if_pos h]
      have := ih (acc * 10 + (c.toNat - 48))
      simp only [List.length_cons]
      omega
    · simp [skipRun, h]

/-- Model of `re.search(r"(\d+)w", part)` (common.py line 162): the first
maximal digit run immediately followed by the letter w, as a number. The
fuel argument makes the recursion structural; every step consumes at least
one character, so fuel equal to the length never runs out. -/
def findWidthAux : Nat → List Char → Option Nat
  | 0, _ => none
  | _, [] => none
  | fuel + 1, c :: rest =>
    if c.isDigit then
      let pr := skipRun (c.toNat - 48) rest
      if pr.2.headD ' ' = 'w' then some pr.1 else findWidthAux fuel pr.2
    else findWidthAux fuel rest

def findWidth (part : String) : Option Nat := findWidthAux part.data.length part.data

/-- One srcset entry folded into the running best (common.py lines 160-167):
update exactly when the declared width strictly exceeds the best so far. -/
def srcsetStep (acc : Option String × Nat) (part : String) : Option String × Nat :=
  match findWidth part with
  | some w => if acc.2 < w then (some (urlPart part), w) else acc
  | none => acc

/-- Srcset selection of the site-profile path (common.py lines 153-169):
best over the parts, starting from best_url None and best_width 0. -/
def bestFromSrcset (val : String) : Option String :=
  ((splitParts val).foldl srcsetStep (none, 0)).1

/-- Srcset selection of the generic path (common.py lines 217-222): the url
of the positionally last entry. -/
def genericSrcsetPick (val : String) : Option String :=
  ((splitParts val).getLast?).map urlPart

theorem srcsetFold_spec (l : List String) :
    ∀ (u0 : Option String) (w0 : Nat),
      w0 ≤ (l.foldl srcsetStep (u0, w0)).2 ∧
      (∀ q ∈ l, ∀ w, findWidth q = some w → w ≤ (l.foldl srcsetStep (u0, w0)).2) ∧
      (l.foldl srcsetStep (u0, w0) = (u0, w0) ∨
        ∃ p ∈ l, (l.foldl srcsetStep (u0, w0)).1 = some (urlPart p) ∧
          findWidth p = some (l.foldl srcsetStep (u0, w0)).2 ∧
          w0 < (l.foldl srcsetStep (u0, w0)).2) := by
  induction l with
  | nil =>
    intro u0 w0
    exact ⟨le_refl _, by simp, Or.inl rfl⟩
  | cons q rest ih =>
    intro u0 w0
    rw [List.foldl_cons]
    rcases hw : findWidth q with _ | w
    · have hstep : srcsetStep (u0, w0) q = (u0, w0) := by
        simp [srcsetStep, hw]
      rw [hstep]
      obtain ⟨ha, hb, hc⟩ := ih u0 w0
      refine ⟨ha, ?_, ?_⟩
      · intro x hx wx hwx
        rcases List.mem_cons.mp hx with rfl | hx2
        · rw [hw] at hwx
          cases hwx
        · exact hb x hx2 wx hwx
      · rcases hc with h | ⟨p, hp, h1, h2, h3⟩
        · exact Or.inl h
        · exact Or.inr ⟨p, List.mem_cons_of_mem q hp, h1, h2, h3⟩
    · by_cases hlt : w0 < w
      · have hstep : srcsetStep (u0, w0) q = (some (urlPart q), w) := by
          simp [srcsetStep, hw, hlt]
        rw [hstep]
        obtain ⟨ha, hb, hc⟩ := ih (some (urlPart q)) w
        refine ⟨by omega, ?_, ?_⟩
        · intro x hx wx hwx
          rcases List.mem_cons.mp hx with rfl | hx2
          · rw [hw] at hwx
            injection hwx with he
            omega
          · exact hb x hx2 wx hwx
        · rcases hc with h | ⟨p, hp, h1, h2, h3⟩
          · refine Or.inr ⟨q, List.mem_cons_self q rest, ?_, ?_, ?_⟩
            · rw [h]
            · rw [h]
              exact hw
            · rw [h]
              exact hlt
          · exact Or.inr ⟨p, List.mem_cons_of_mem q hp, h1, h2, by omega⟩
      · have hstep : srcsetStep (u0, w0) q = (u0, w0) := by
          simp [srcsetStep, hw, hlt]
        rw [hstep]
        obtain ⟨ha, hb, hc⟩ := ih u0 w0
        refine ⟨ha, ?_, ?_⟩
        · intro x hx wx hwx
          rcases List.mem_cons.mp hx with rfl | hx2
          · rw [hw] at hwx
            injection hwx with he
            omega
          · exact hb x hx2 wx hwx
        · rcases hc with h | ⟨p, hp, h1, h2, h3⟩
          · exact Or.inl h
          · exact Or.inr ⟨p, List.mem_cons_of_mem q hp, h1, h2, h3⟩

/-- C5 counterexample: on the srcset value whose highest-width entry comes
first, the generic extraction path picks the positionally last entry a.jpg,
not the highest-width entry b.jpg that the site-profile path picks, so the
claim fails for the generic path. -/
theorem srcset_generic_positional_cex :
    genericSrcsetPick "b.jpg 800w, a.jpg 200w" = some "a.jpg" ∧
    bestFromSrcset "b.jpg 800w, a.jpg 200w" = some "b.jpg" ∧
    ("a.jpg" : String) ≠ "b.jpg" := by
  refine ⟨by decide, by decide, by decide⟩

/-- C5 amended: the site-profile extraction path selects from a srcset an
entry carrying the maximal declared width (strictly positive, first maximum
on ties), as on the example where it picks b.jpg at 800w; the generic
extraction path instead takes the positionally last entry. -/
theorem srcset_best_selects_highest (val u : String)
    (h : bestFromSrcset val = some u) :
    ∃ p ∈ splitParts val, urlPart p = u ∧ ∃ w, findWidth p = some w ∧ 0 < w ∧
      ∀ q ∈ splitParts val, ∀ w2, findWidth q = some w2 → w2 ≤ w := by
  obtain ⟨ha, hb, hc⟩ := srcsetFold_spec (splitParts val) none 0
  unfold bestFromSrcset at h
  rcases hc with heq | ⟨p, hp, h1, h2, h3⟩
  · rw [heq] at h
    cases h
  · refine ⟨p, hp, ?_, (splitParts val).foldl srcsetStep (none, 0) |>.2, h2, h3, hb⟩
    rw [h1] at h
    injection h with he

/-- Witness for the amended C5 theorem on the spec example srcset. -/
theorem srcset_best_selects_highest_witness :
    bestFromSrcset "a.jpg 200w, b.jpg 800w" = some "b.jpg" ∧
    ∃ p ∈ splitParts "a.jpg 200w, b.jpg 800w", urlPart p = "b.jpg" ∧
      ∃ w, findWidth p = some w ∧ 0 < w ∧
        ∀ q ∈ splitParts "a.jpg 200w, b.jpg 800w", ∀ w2,
          findWidth q = some w2 → w2 ≤ w :=
  ⟨by decide, srcset_best_selects_highest "a.jpg 200w, b.jpg 800w" "b.jpg" (by decide)⟩

/-- Insertion into the Python set `urls` of the discovery traversal: each
raw url is held at most once. Python set iteration order is implementation
defined; the model fixes insertion order, and every property settled below
is independent of that choice. -/
def insertNew (l : List String) (u : String) : List String :=
  if u ∈ l then l else l ++ [u]

/-- The candidate set accumulated over the discovered attribute values. -/
def collectSet (discovered : List String) : List String :=
  discovered.foldl insertNew []

/-- Python `re.sub(r"\?.*$", "", url)` for urls without newlines: the
characters before the first question mark. -/
def stripQuery (u : String) : String :=
  String.mk (u.data.takeWhile (fun c => ¬ c = '?'))

/-- Boolean prefix test on character lists. -/
def leadsWith : List Char → List Char → Bool
  | [], _ => true
  | _ :: _, [] => false
  | p :: ps, c :: cs => p = c && leadsWith ps cs

/-- Python `url.lower().startswith("http")` on ASCII urls. -/
def lowerStartsHttp (u : String) : Bool :=
  leadsWith "http".data (u.data.map Char.toLower)

/-- A site profile restricted to the fields the filtering step reads: the
quality pattern predicates and the minimum score. -/
structure SiteConfig where
  quality_patterns : List (String → Bool)
  min_quality_score : Nat

/-- Quality scoring loop (common.py lines 194-198): count the quality
patterns matching the raw url. -/
def qualityScore (patterns : List (String → Bool)) (u : String) : Nat :=
  patterns.foldl (fun s p => if p u then s + 1 else s) 0

/-- Filtering loop of `_extract_high_quality_urls` (common.py lines
186-202): skip non-http candidates, keep those whose score meets
min_quality_score, emitting the query-stripped url. -/
def filterCandidates (cfg : SiteConfig) : List String → List String
  | [] => []
  | u :: rest =>
    if ¬ (lowerStartsHttp u = true) then filterCandidates cfg rest
    else if cfg.min_quality_score ≤ qualityScore cfg.quality_patterns u then
      stripQuery u :: filterCandidates cfg rest
    else filterCandidates cfg rest

/-- `_extract_high_quality_urls` end to end over the discovered attribute
values: set collection then quality filtering. -/
def extract_high_quality_urls (cfg : SiteConfig) (discovered : List String) :
    List String :=
  filterCandidates cfg (collectSet discovered)

/-- The per-candidate retention decision implied by the filtering loop. -/
def retained (cfg : SiteConfig) (u : String) : Bool :=
  lowerStartsHttp u &&
    decide (cfg.min_quality_score ≤ qualityScore cfg.quality_patterns u)

theorem filterCandidates_eq (cfg : SiteConfig) (urls : List String) :
    filterCandidates cfg urls = (urls.filter (retained cfg)).map stripQuery := by
  induction urls with
  | nil => rfl
  | cons u rest ih =>
    by_cases h1 : lowerStartsHttp u = true
    · by_cases h2 : cfg.min_quality_score ≤ qualityScore cfg.quality_patterns u
      · have hr : retained cfg u = true := by simp [retained, h1, h2]
        simp [filterCandidates, List.filter_cons, h1, h2, hr, ih]
      · have hr : retained cfg u = false := by simp [retained, h2]
        simp [filterCandidates, List.filter_cons, h1, h2, hr, ih]
    · have hr : retained cfg u = false := by simp [retained, h1]
      simp [filterCandidates, List.filter_cons, h1, hr, ih]

theorem qualityScore_foldl (patterns : List (String → Bool)) (u : String) :
    ∀ s : Nat, patterns.foldl (fun s p => if p u then s + 1 else s) s =
      s + patterns.countP (fun p => p u) := by
  induction patterns with
  | nil => intro s; simp
  | cons p rest ih =>
    intro s
    rw [List.foldl_cons, List.countP_cons]
    cases hpu : p u
    · simp
      exact ih s
    · simp
      rw [ih (s + 1)]
      generalize List.countP (fun p => p u) rest = c
      omega

theorem qualityScore_eq_countP (patterns : List (String → Bool)) (u : String) :
    qualityScore patterns u = patterns.countP (fun p => p u) := by
  have := qualityScore_foldl patterns u 0
  simpa [qualityScore] using this

theorem countP_le_of_imp (l : List (String → Bool)) (u u2 : String)
    (h : ∀ p ∈ l, p u = true → p u2 = true) :
    l.countP (fun p => p u) ≤ l.countP (fun p => p u2) := by
  induction l with
  | nil => simp
  | cons p rest ih =>
    rw [List.countP_cons, List.countP_cons]
    have hrest := ih (fun q hq => h q (List.mem_cons_of_mem p hq))
    revert hrest
    generalize List.countP (fun p => p u) rest = c1
    generalize List.countP (fun p => p u2) rest = c2
    intro hrest
    cases hpu : p u
    · cases hpu2 : p u2 <;> simp [hpu, hpu2] <;> omega
    · have hq := h p (List.mem_cons_self p rest) hpu
      simp [hpu, hq]
      omega

/-- C7: for a candidate url (http-prefixed after lowercasing, as every
candidate the filter keeps is), the quality score equals the number of
quality pattern regexes matching the raw url, the filtering loop retains a
candidate exactly when that score reaches min_quality_score, and the score
is monotone in the set of matching patterns. -/
theorem quality_scoring_spec (cfg : SiteConfig) (u : String)
    (h : lowerStartsHttp u = true) :
    qualityScore cfg.quality_patterns u =
      cfg.quality_patterns.countP (fun p => p u) ∧
    (retained cfg u = true ↔
      cfg.min_quality_score ≤ qualityScore cfg.quality_patterns u) ∧
    (∀ urls : List String, filterCandidates cfg urls =
      (urls.filter (retained cfg)).map stripQuery) ∧
    (∀ u2 : String, (∀ p ∈ cfg.quality_patterns, p u = true → p u2 = true) →
      qualityScore cfg.quality_patterns u ≤ qualityScore cfg.quality_patterns u2) := by
  refine ⟨qualityScore_eq_countP cfg.quality_patterns u, ?_, ?_, ?_⟩
  · simp [retained, h]
  · exact fun urls => filterCandidates_eq cfg urls
  · intro u2 himp
    rw [qualityScore_eq_countP, qualityScore_eq_countP]
    exact countP_le_of_imp cfg.quality_patterns u u2 himp

/-- Profile with three quality patterns and threshold 1 for the C7 witness;
the predicates stand for the regexes, testing the raw url text. -/
def demoCfg : SiteConfig :=
  ⟨[fun s => decide ('=' ∈ s.data), fun s => decide ('&' ∈ s.data),
    fun s => decide ('#' ∈ s.data)], 1⟩

/-- Witness for C7: a url matching 2 of the 3 patterns scores 2 and is
retained at threshold 1, one matching 0 patterns scores 0 and is
discarded. -/
theorem quality_scoring_spec_witness :
    lowerStartsHttp "https://img/a?w=600&h=400" = true ∧
    (qualityScore demoCfg.quality_patterns "https://img/a?w=600&h=400" =
      demoCfg.quality_patterns.countP (fun p => p "https://img/a?w=600&h=400") ∧
    (retained demoCfg "https://img/a?w=600&h=400" = true ↔
      demoCfg.min_quality_score ≤
        qualityScore demoCfg.quality_patterns "https://img/a?w=600&h=400") ∧
    (∀ urls : List String, filterCandidates demoCfg urls =
      (urls.filter (retained demoCfg)).map stripQuery) ∧
    (∀ u2 : String,
      (∀ p ∈ demoCfg.quality_patterns,
        p "https://img/a?w=600&h=400" = true → p u2 = true) →
      qualityScore demoCfg.quality_patterns "https://img/a?w=600&h=400" ≤
        qualityScore demoCfg.quality_patterns u2)) ∧
    qualityScore demoCfg.quality_patterns "https://img/a?w=600&h=400" = 2 ∧
    retained demoCfg "https://img/a?w=600&h=400" = true ∧
    qualityScore demoCfg.quality_patterns "http://img/b.gif" = 0 ∧
    retained demoCfg "http://img/b.gif" = false :=
  ⟨by decide, quality_scoring_spec demoCfg "https://img/a?w=600&h=400" (by decide),
    by decide, by decide, by decide, by decide⟩

/-- C6 counterexample: two distinct raw candidate urls differing only in
their query strings both enter the set, and query stripping maps both to
the same cleaned url, so the returned candidate list repeats it - the
extractor output is not duplicate free. -/
theorem extract_urls_duplicate_cex :
    extract_high_quality_urls ⟨[], 0⟩ ["http://a.jpg?x=1", "http://a.jpg?y=2"] =
      ["http://a.jpg", "http://a.jpg"] ∧
    ¬ (extract_high_quality_urls ⟨[], 0⟩
        ["http://a.jpg?x=1", "http://a.jpg?y=2"]).Nodup := by
  constructor
  · rfl
  · decide

theorem insertNew_foldl_spec (l : List String) :
    ∀ acc : List String, acc.Nodup →
      (l.foldl insertNew acc).Nodup ∧
      ∀ u, u ∈ l.foldl insertNew acc ↔ u ∈ acc ∨ u ∈ l := by
  induction l with
  | nil =>
    intro acc h
    simp [h]
  | cons x rest ih =>
    intro acc h
    rw [List.foldl_cons]
    by_cases hx : x ∈ acc
    · have hins : insertNew acc x = acc := by simp [insertNew, hx]
      rw [hins]
      obtain ⟨h1, h2⟩ := ih acc h
      refine ⟨h1, fun u => ?_⟩
      rw [h2 u, List.mem_cons]
      constructor
      · rintro (ha | hr)
        · exact Or.inl ha
        · exact Or.inr (Or.inr hr)
      · rintro (ha | rfl | hr)
        · exact Or.inl ha
        · exact Or.inl hx
        · exact Or.inr hr
    · have hins : insertNew acc x = acc ++ [x] := by simp [insertNew, hx]
      rw [hins]
      have hnd : (acc ++ [x]).Nodup := by
        refine List.Nodup.append h (List.nodup_singleton x) ?_
        intro a ha hb
        rw [List.mem_singleton] at hb
        exact hx (hb ▸ ha)
      obtain ⟨h1, h2⟩ := ih (acc ++ [x]) hnd
      refine ⟨h1, fun u => ?_⟩
      rw [h2 u, List.mem_append, List.mem_singleton, List.mem_cons]
      tauto

/-- C6 amended: the candidate set holds each discovered raw url exactly
once (it is duplicate free and holds exactly the discovered urls), and the
returned list is the retained members of that set, query stripped; the
stripping can merge distinct raw urls into repeated cleaned entries, and
the order is the set enumeration order rather than a guaranteed discovery
order. -/
theorem collectSet_spec (cfg : SiteConfig) (discovered : List String) :
    (collectSet discovered).Nodup ∧
    (∀ u, u ∈ collectSet discovered ↔ u ∈ discovered) ∧
    extract_high_quality_urls cfg discovered =
      ((collectSet discovered).filter (retained cfg)).map stripQuery := by
  have hmain := insertNew_foldl_spec discovered [] List.nodup_nil
  refine ⟨hmain.1, fun u => ?_, filterCandidates_eq cfg (collectSet discovered)⟩
  have := hmain.2 u
  unfold collectSet
  rw [this]
  simp

/-! ## Fetch Client (src/scraping/common.py, `_get_page_with_retry`)

The environment assigns each attempt index an outcome: a 200 response with
its body, a non-200 status code, or a raised requests exception. The
randomized sleeps `random.uniform(lo, hi)` are recorded symbolically as
their (lo, hi) second bounds. -/

inductive FetchOutcome where
  | ok (body : String)
  | status (code : Nat)
  | exn
  deriving DecidableEq

def isFail : FetchOutcome → Bool
  | .ok _ => false
  | _ => true

/-- The sleep an outcome causes before the next attempt (common.py lines
257-266): uniform(30, 60) on HTTP 429, uniform(2, 5) on an exception, and
none at all on any other non-200 status. -/
def waitOf : FetchOutcome → Option (Nat × Nat)
  | .status code => if code = 429 then some (30, 60) else none
  | .exn => some (2, 5)
  | .ok _ => none

/-- Retry loop of `_get_page_with_retry` (common.py lines 250-267): return
the body on a 200 response; otherwise sleep as `waitOf` dictates and move to
the next attempt; after max_retries attempts return None. Returns the
result together with the recorded sleep intervals. -/
def getPageAux (trace : Nat → FetchOutcome) :
    Nat → Nat → List (Nat × Nat) → Option String × List (Nat × Nat)
  | _, 0, waits => (none, waits)
  | attempt, rem + 1, waits =>
    match trace attempt with
    | .ok body => (some body, waits)
    | .status code =>
      if code = 429 then getPageAux trace (attempt + 1) rem (waits ++ [(30, 60)])
      else getPageAux trace (attempt + 1) rem waits
    | .exn => getPageAux trace (attempt + 1) rem (waits ++ [(2, 5)])

/-- `_get_page_with_retry` with its default budget of 3 attempts. -/
def get_page_with_retry (trace : Nat → FetchOutcome) :
    Option String × List (Nat × Nat) :=
  getPageAux trace 0 3 []

theorem getPageAux_step (trace : Nat → FetchOutcome)
    (attempt rem : Nat) (waits : List (Nat × Nat))
    (hf : isFail (trace attempt) = true) :
    getPageAux trace attempt (rem + 1) waits =
      getPageAux trace (attempt + 1) rem (waits ++ (waitOf (trace attempt)).toList) := by
  rcases ht : trace attempt with b | c | _
  · rw [ht] at hf
    simp [isFail] at hf
  · by_cases hc : c = 429
    · simp [getPageAux, ht, hc, waitOf]
    · simp [getPageAux, ht, hc, waitOf]
  · simp [getPageAux, ht, waitOf]

/-- C8 counterexample: three consecutive HTTP 500 responses - transient 5xx
failures - are retried until the budget is exhausted, but no backoff wait
of any kind occurs between the attempts, refuting the claim that 5xx
failures are retried with randomized backoff. -/
theorem fetch_retry_5xx_no_backoff_cex :
    (get_page_with_retry (fun _ => .status 500)).1 = none ∧
    (get_page_with_retry (fun _ => .status 500)).2 = [] := by
  constructor
  · rfl
  · rfl

/-- C8 amended: the fetch retries every failed attempt up to the budget of
3 and then returns None to the caller instead of raising; an HTTP 429
outcome is followed by a randomized 30-60 second wait before the retry and
a connection error (exception) by a randomized 2-5 second backoff, while
any other non-200 status - 5xx included - is retried immediately with no
backoff. -/
theorem fetch_retry_exhaustion (trace : Nat → FetchOutcome)
    (h0 : isFail (trace 0) = true) (h1 : isFail (trace 1) = true)
    (h2 : isFail (trace 2) = true) :
    (get_page_with_retry trace).1 = none ∧
    (get_page_with_retry trace).2 =
      (waitOf (trace 0)).toList ++ (waitOf (trace 1)).toList ++
        (waitOf (trace 2)).toList ∧
    waitOf (.status 429) = some (30, 60) ∧
    waitOf .exn = some (2, 5) ∧
    (∀ c : Nat, ¬ c = 429 → waitOf (.status c) = none) := by
  unfold get_page_with_retry
  rw [getPageAux_step trace 0 2 [] h0]
  rw [getPageAux_step trace 1 1 _ h1]
  rw [getPageAux_step trace 2 0 _ h2]
  refine ⟨rfl, ?_, rfl, rfl, ?_⟩
  · show [] ++ (waitOf (trace 0)).toList ++ (waitOf (trace 1)).toList ++
      (waitOf (trace 2)).toList = _
    simp
  · intro c hc
    simp [waitOf, hc]

/-- Failing trace for the C8 witness: 429, then two connection errors. -/
def demoTrace : Nat → FetchOutcome :=
  fun n => if n = 0 then .status 429 else .exn

/-- Witness for the amended C8 theorem on the concrete failing trace. -/
theorem fetch_retry_exhaustion_witness :
    isFail (demoTrace 0) = true ∧ isFail (demoTrace 1) = true ∧
    isFail (demoTrace 2) = true ∧
    ((get_page_with_retry demoTrace).1 = none ∧
    (get_page_with_retry demoTrace).2 =
      (waitOf (demoTrace 0)).toList ++ (waitOf (demoTrace 1)).toList ++
        (waitOf (demoTrace 2)).toList ∧
    waitOf (.status 429) = some (30, 60) ∧
    waitOf .exn = some (2, 5) ∧
    (∀ c : Nat, ¬ c = 429 → waitOf (.status c) = none)) :=
  ⟨by decide, by decide, by decide,
    fetch_retry_exhaustion demoTrace (by decide) (by decide) (by decide)⟩

end DataPack
